import Mathlib

/-!
Verification of the holo-fn aggregation-combinator subsystem.

Shallow embedding of the three container families (Result, Either, Maybe)
and their array-level aggregation combinators `all`, `sequence` and
`partition`, translated from src/src/result/index.ts, the Either module
and the Maybe module. JS arrays are modelled as Lean lists; `push`
appends at the end; the `for ... of` loops with early `return` become
accumulator-passing recursions; the JS `undefined` returned by
Nothing.extract is modelled as `none` in an `Option` codomain.
-/

set_option maxHeartbeats 1000000

variable {V E L R P W X : Type}

/-- The Result container: Ok (success, carrying a value) or Err (failure,
carrying an error), from src/src/result/index.ts. -/
inductive Result (V : Type) (E : Type) where
  | ok (value : V)
  | err (error : E)
deriving DecidableEq

/-- Translation of Result.isOk. -/
def Result.isOk : Result V E → Bool
  | .ok _ => true
  | .err _ => false

/-- Translation of Result.isErr. -/
def Result.isErr : Result V E → Bool
  | .ok _ => false
  | .err _ => true

/-- Translation of Result.extract: the value of an Ok, the error of an Err. -/
def Result.extract : Result V E → V ⊕ E
  | .ok v => Sum.inl v
  | .err e => Sum.inr e

/-- Accumulator recursion for the loop body of `all` in
src/src/result/index.ts lines 425-444: for each element, if isErr push
the extracted error onto `errors`, else push the extracted value onto
`values`; after the loop, Err(errors) when errors is non-empty, else
Ok(values). -/
def Result.allAux (values : List V) (errors : List E) :
    List (Result V E) → Result (List V) (List E)
  | [] => if errors.length > 0 then Result.err errors else Result.ok values
  | .err e :: rest => Result.allAux values (errors ++ [e]) rest
  | .ok v :: rest => Result.allAux (values ++ [v]) errors rest

/-- Translation of `all` (Result variant), starting from empty accumulators. -/
def Result.all (results : List (Result V E)) : Result (List V) (List E) :=
  Result.allAux [] [] results

/-- Accumulator recursion for the loop of `sequence` in
src/src/result/index.ts lines 469-483: push values in order, and return
Err(extracted error) at the first Err. -/
def Result.seqAux (values : List V) : List (Result V E) → Result (List V) E
  | [] => Result.ok values
  | .err e :: _ => Result.err e
  | .ok v :: rest => Result.seqAux (values ++ [v]) rest

/-- Translation of `sequence` (Result variant). -/
def Result.sequence (results : List (Result V E)) : Result (List V) E :=
  Result.seqAux [] results

/-- Number of loop iterations the `sequence` loop performs before
returning: each examined element counts once, and the loop stops at the
first Err. -/
def Result.seqVisited : List (Result V E) → Nat
  | [] => 0
  | .err _ :: _ => 1
  | .ok _ :: rest => 1 + Result.seqVisited rest

/-- The pair of output arrays of `partition`, mirroring the TS object
with fields oks and errs. -/
structure Partitioned (V : Type) (E : Type) where
  oks : List V
  errs : List E
deriving DecidableEq

/-- Reducer step of `partition` in src/src/result/index.ts lines 507-524:
push the extracted error onto errs when isErr, else push the extracted
value onto oks. -/
def Result.partitionStep (acc : Partitioned V E) : Result V E → Partitioned V E
  | .err e => ⟨acc.oks, acc.errs ++ [e]⟩
  | .ok v => ⟨acc.oks ++ [v], acc.errs⟩

/-- Translation of `partition` (Result variant): a reduce (left fold) over
the input with both accumulators starting empty. -/
def Result.partition (results : List (Result V E)) : Partitioned V E :=
  results.foldl Result.partitionStep ⟨[], []⟩

/-- Reference collection, following the spec wording: the ordered
collection of every success element extracted value, in input order. -/
def Result.oksOf : List (Result V E) → List V
  | [] => []
  | .ok v :: rest => v :: Result.oksOf rest
  | .err _ :: rest => Result.oksOf rest

/-- Reference collection, following the spec wording: the ordered
collection of every failing element extracted failure value, in input
order, not sorted, not deduplicated. -/
def Result.errsOf : List (Result V E) → List E
  | [] => []
  | .ok _ :: rest => Result.errsOf rest
  | .err e :: rest => e :: Result.errsOf rest

/-- Reference definition of `all`, following the spec wording (section 4.2):
fold over the whole input collecting both accumulators, then decide the
output state from the failure accumulator. -/
def Result.allRef (results : List (Result V E)) : Result (List V) (List E) :=
  if (Result.errsOf results).length > 0
  then Result.err (Result.errsOf results)
  else Result.ok (Result.oksOf results)

/-- The Either container: Left (failure side) or Right (success side),
from the Either module. -/
inductive Either (L : Type) (R : Type) where
  | left (value : L)
  | right (value : R)
deriving DecidableEq

/-- Translation of Either.isLeft. -/
def Either.isLeft : Either L R → Bool
  | .left _ => true
  | .right _ => false

/-- Translation of Either.isRight. -/
def Either.isRight : Either L R → Bool
  | .left _ => false
  | .right _ => true

/-- Accumulator recursion for the loop of `all` (Either variant): push
extracted Left values onto `errors`, extracted Right values onto
`values`; after the loop, Left(errors) when errors is non-empty, else
Right(values). -/
def Either.allAux (values : List R) (errors : List L) :
    List (Either L R) → Either (List L) (List R)
  | [] => if errors.length > 0 then Either.left errors else Either.right values
  | .left l :: rest => Either.allAux values (errors ++ [l]) rest
  | .right r :: rest => Either.allAux (values ++ [r]) errors rest

/-- Translation of `all` (Either variant). -/
def Either.all (eithers : List (Either L R)) : Either (List L) (List R) :=
  Either.allAux [] [] eithers

/-- Accumulator recursion for the loop of `sequence` (Either variant):
push Right values in order, return Left(extracted value) at the first
Left. -/
def Either.seqAux (values : List R) : List (Either L R) → Either L (List R)
  | [] => Either.right values
  | .left l :: _ => Either.left l
  | .right r :: rest => Either.seqAux (values ++ [r]) rest

/-- Translation of `sequence` (Either variant). -/
def Either.sequence (eithers : List (Either L R)) : Either L (List R) :=
  Either.seqAux [] eithers

/-- Number of loop iterations the Either `sequence` loop performs before
returning. -/
def Either.seqVisited : List (Either L R) → Nat
  | [] => 0
  | .left _ :: _ => 1
  | .right _ :: rest => 1 + Either.seqVisited rest

/-- The pair of output arrays of the Either `partition`, mirroring the TS
object with fields lefts and rights. -/
structure EitherPartitioned (L : Type) (R : Type) where
  lefts : List L
  rights : List R
deriving DecidableEq

/-- Reducer step of the Either `partition`: push the extracted value onto
lefts when isLeft, else onto rights. -/
def Either.partitionStep (acc : EitherPartitioned L R) :
    Either L R → EitherPartitioned L R
  | .left l => ⟨acc.lefts ++ [l], acc.rights⟩
  | .right r => ⟨acc.lefts, acc.rights ++ [r]⟩

/-- Translation of `partition` (Either variant): a reduce over the input
with both accumulators starting empty. -/
def Either.partition (eithers : List (Either L R)) : EitherPartitioned L R :=
  eithers.foldl Either.partitionStep ⟨[], []⟩

/-- Reference collection: the ordered Left values, in input order. -/
def Either.leftsOf : List (Either L R) → List L
  | [] => []
  | .left l :: rest => l :: Either.leftsOf rest
  | .right _ :: rest => Either.leftsOf rest

/-- Reference collection: the ordered Right values, in input order. -/
def Either.rightsOf : List (Either L R) → List R
  | [] => []
  | .left _ :: rest => Either.rightsOf rest
  | .right r :: rest => r :: Either.rightsOf rest

/-- Reference definition of the Either `all`, following the spec wording:
fold over the whole input, then decide the output state from the failure
accumulator. -/
def Either.allRef (eithers : List (Either L R)) : Either (List L) (List R) :=
  if (Either.leftsOf eithers).length > 0
  then Either.left (Either.leftsOf eithers)
  else Either.right (Either.rightsOf eithers)

/-- The Maybe container: Just (success, carrying a value) or Nothing
(failure, carrying no value), from the Maybe module. -/
inductive Maybe (V : Type) where
  | just (value : V)
  | nothing
deriving DecidableEq

/-- Translation of Maybe.isJust. -/
def Maybe.isJust : Maybe V → Bool
  | .just _ => true
  | .nothing => false

/-- Translation of Maybe.isNothing. -/
def Maybe.isNothing : Maybe V → Bool
  | .just _ => false
  | .nothing => true

/-- Translation of Maybe.extract. Just.extract returns the wrapped value;
Nothing.extract returns the JS `undefined` (modelled as `none`), so the
codomain is an Option. -/
def Maybe.extract : Maybe V → Option V
  | .just v => some v
  | .nothing => none

/-- Accumulator recursion for the loop of `all` (Maybe variant), from the
Maybe module lines 337-349: at the first Nothing, return a fresh Nothing
at once; otherwise push the extracted value and continue. -/
def Maybe.allAux (values : List V) : List (Maybe V) → Maybe (List V)
  | [] => Maybe.just values
  | .nothing :: _ => Maybe.nothing
  | .just v :: rest => Maybe.allAux (values ++ [v]) rest

/-- Translation of `all` (Maybe variant). -/
def Maybe.all (maybes : List (Maybe V)) : Maybe (List V) :=
  Maybe.allAux [] maybes

/-- Number of loop iterations the Maybe `all` loop performs before
returning: each examined element counts once, and the loop returns at the
first Nothing. -/
def Maybe.allVisited : List (Maybe V) → Nat
  | [] => 0
  | .nothing :: _ => 1
  | .just _ :: rest => 1 + Maybe.allVisited rest

/-- A container whose discriminant and extraction methods may throw,
modelling a JS object whose isErr or extract raises an exception of type
X; a normal call returns Except.ok. -/
structure ContM (P : Type) (X : Type) where
  isErrM : Except X Bool
  extractM : Except X P

/-- The `all` loop run over containers with possibly-throwing methods.
The combinator body has no try/catch, so a raised exception aborts the
loop and propagates unmodified; otherwise the loop is the one of
src/src/result/index.ts lines 425-444. -/
def ContM.allAux (values errors : List P) :
    List (ContM P X) → Except X (Result (List P) (List P))
  | [] =>
    Except.ok (if errors.length > 0 then Result.err errors else Result.ok values)
  | c :: rest =>
    match c.isErrM with
    | Except.error x => Except.error x
    | Except.ok b =>
      if b then
        match c.extractM with
        | Except.error x => Except.error x
        | Except.ok p => ContM.allAux values (errors ++ [p]) rest
      else
        match c.extractM with
        | Except.error x => Except.error x
        | Except.ok p => ContM.allAux (values ++ [p]) errors rest

/-- `all` over possibly-throwing containers. -/
def ContM.all (cs : List (ContM P X)) : Except X (Result (List P) (List P)) :=
  ContM.allAux [] [] cs

/-- The `sequence` loop run over containers with possibly-throwing
methods; no try/catch, exceptions propagate unmodified. -/
def ContM.seqAux (values : List P) :
    List (ContM P X) → Except X (Result (List P) P)
  | [] => Except.ok (Result.ok values)
  | c :: rest =>
    match c.isErrM with
    | Except.error x => Except.error x
    | Except.ok b =>
      if b then
        match c.extractM with
        | Except.error x => Except.error x
        | Except.ok p => Except.ok (Result.err p)
      else
        match c.extractM with
        | Except.error x => Except.error x
        | Except.ok p => ContM.seqAux (values ++ [p]) rest

/-- `sequence` over possibly-throwing containers. -/
def ContM.sequence (cs : List (ContM P X)) : Except X (Result (List P) P) :=
  ContM.seqAux [] cs

/-- The `partition` reduce run over containers with possibly-throwing
methods; no try/catch, exceptions propagate unmodified. -/
def ContM.partAux (oks errs : List P) :
    List (ContM P X) → Except X (Partitioned P P)
  | [] => Except.ok ⟨oks, errs⟩
  | c :: rest =>
    match c.isErrM with
    | Except.error x => Except.error x
    | Except.ok b =>
      if b then
        match c.extractM with
        | Except.error x => Except.error x
        | Except.ok p => ContM.partAux oks (errs ++ [p]) rest
      else
        match c.extractM with
        | Except.error x => Except.error x
        | Except.ok p => ContM.partAux (oks ++ [p]) errs rest

/-- `partition` over possibly-throwing containers. -/
def ContM.partition (cs : List (ContM P X)) : Except X (Partitioned P P) :=
  ContM.partAux [] [] cs

/-- Runtime extraction for a homogeneous Result (the TS methods are
untyped at runtime): the value of an Ok, the error of an Err. -/
def Result.extractU : Result P P → P
  | .ok v => v
  | .err e => e

/-- A Result whose methods are pure, viewed as a possibly-throwing
container whose calls always return normally. -/
def Result.toCont (r : Result P P) : ContM P X :=
  ⟨Except.ok r.isErr, Except.ok r.extractU⟩

/-! Characterization lemmas for the Result combinators. -/

theorem Result.allAux_eq (rs : List (Result V E)) :
    ∀ (values : List V) (errors : List E),
      Result.allAux values errors rs =
        if (errors ++ Result.errsOf rs).length > 0
        then Result.err (errors ++ Result.errsOf rs)
        else Result.ok (values ++ Result.oksOf rs) := by
  induction rs with
  | nil =>
    intro values errors
    simp [Result.allAux, Result.errsOf, Result.oksOf]
  | cons r rest ih =>
    intro values errors
    cases r with
    | ok v =>
      simp only [Result.allAux, Result.errsOf, Result.oksOf, ih,
        List.append_assoc, List.cons_append, List.nil_append]
    | err e =>
      simp only [Result.allAux, Result.errsOf, Result.oksOf, ih,
        List.append_assoc, List.cons_append, List.nil_append]

theorem Result.all_eq (rs : List (Result V E)) :
    Result.all rs =
      if (Result.errsOf rs).length > 0
      then Result.err (Result.errsOf rs)
      else Result.ok (Result.oksOf rs) := by
  simpa using Result.allAux_eq rs [] []

theorem Result.seqAux_map_ok (vs : List V) :
    ∀ values : List V,
      Result.seqAux (E := E) values (vs.map Result.ok) =
        Result.ok (values ++ vs) := by
  induction vs with
  | nil => intro values; simp [Result.seqAux]
  | cons v t ih =>
    intro values
    simp [Result.seqAux, ih, List.append_assoc, List.cons_append, List.nil_append]

theorem Result.seqAux_first_err (vs : List V) (e : E) (rest : List (Result V E)) :
    ∀ values : List V,
      Result.seqAux values (vs.map Result.ok ++ Result.err e :: rest) =
        Result.err e := by
  induction vs with
  | nil => intro values; simp [Result.seqAux]
  | cons v t ih => intro values; simp [Result.seqAux, ih]

theorem Result.seqVisited_first_err (vs : List V) (e : E)
    (rest : List (Result V E)) :
    Result.seqVisited (vs.map Result.ok ++ Result.err e :: rest) =
      vs.length + 1 := by
  induction vs with
  | nil => simp [Result.seqVisited]
  | cons v t ih => simp [Result.seqVisited, ih]; omega

theorem Result.errsOf_of_no_err (rs : List (Result V E))
    (h : ∀ r ∈ rs, r.isErr = false) : Result.errsOf rs = [] := by
  induction rs with
  | nil => rfl
  | cons r rest ih =>
    cases r with
    | ok v =>
      exact ih fun r hr => h r (List.mem_cons_of_mem _ hr)
    | err e =>
      have := h _ (List.mem_cons_self _ _)
      simp [Result.isErr] at this

theorem Result.seqAux_of_no_err (rs : List (Result V E))
    (h : ∀ r ∈ rs, r.isErr = false) :
    ∀ values : List V,
      Result.seqAux values rs = Result.ok (values ++ Result.oksOf rs) := by
  induction rs with
  | nil => intro values; simp [Result.seqAux, Result.oksOf]
  | cons r rest ih =>
    intro values
    cases r with
    | ok v =>
      simp [Result.seqAux, Result.oksOf,
        ih fun r hr => h r (List.mem_cons_of_mem _ hr),
        List.append_assoc, List.cons_append, List.nil_append]
    | err e =>
      have := h _ (List.mem_cons_self _ _)
      simp [Result.isErr] at this

theorem Result.errsOf_ne_nil_of_mem (rs : List (Result V E))
    (h : ∃ r ∈ rs, r.isErr = true) : Result.errsOf rs ≠ [] := by
  induction rs with
  | nil => simp at h
  | cons r rest ih =>
    cases r with
    | ok v =>
      have h2 : ∃ r ∈ rest, r.isErr = true := by
        rcases h with ⟨r, hmem, herr⟩
        rcases List.mem_cons.mp hmem with heq | hmem2
        · rw [heq] at herr; simp [Result.isErr] at herr
        · exact ⟨r, hmem2, herr⟩
      simpa [Result.errsOf] using ih h2
    | err e => simp [Result.errsOf]

theorem Result.partition_foldl (rs : List (Result V E)) :
    ∀ acc : Partitioned V E,
      rs.foldl Result.partitionStep acc =
        ⟨acc.oks ++ Result.oksOf rs, acc.errs ++ Result.errsOf rs⟩ := by
  induction rs with
  | nil => intro acc; simp [Result.oksOf, Result.errsOf]
  | cons r rest ih =>
    intro acc
    cases r with
    | ok v =>
      simp [List.foldl_cons, Result.partitionStep, ih, Result.oksOf,
        Result.errsOf, List.append_assoc, List.cons_append, List.nil_append]
    | err e =>
      simp [List.foldl_cons, Result.partitionStep, ih, Result.oksOf,
        Result.errsOf, List.append_assoc, List.cons_append, List.nil_append]

theorem Result.partition_eq (rs : List (Result V E)) :
    Result.partition rs = ⟨Result.oksOf rs, Result.errsOf rs⟩ := by
  simpa [Result.partition] using Result.partition_foldl rs ⟨[], []⟩

theorem Result.length_oksOf_add_errsOf (rs : List (Result V E)) :
    (Result.oksOf rs).length + (Result.errsOf rs).length = rs.length := by
  induction rs with
  | nil => rfl
  | cons r rest ih =>
    cases r with
    | ok v => simp [Result.oksOf, Result.errsOf]; omega
    | err e => simp [Result.oksOf, Result.errsOf]; omega

theorem Result.errsOf_append (xs ys : List (Result V E)) :
    Result.errsOf (xs ++ ys) = Result.errsOf xs ++ Result.errsOf ys := by
  induction xs with
  | nil => rfl
  | cons r rest ih =>
    cases r with
    | ok v => simp [Result.errsOf, ih]
    | err e => simp [Result.errsOf, ih]

theorem Result.errsOf_map_ok (vs : List V) :
    Result.errsOf (E := E) (vs.map Result.ok) = [] := by
  induction vs with
  | nil => rfl
  | cons v t ih => simpa [Result.errsOf] using ih

/-! Characterization lemmas for the Either combinators. -/

theorem Either.allAux_collect (es : List (Either L R)) :
    ∀ (values : List R) (errors : List L),
      Either.allAux values errors es =
        if (errors ++ Either.leftsOf es).length > 0
        then Either.left (errors ++ Either.leftsOf es)
        else Either.right (values ++ Either.rightsOf es) := by
  induction es with
  | nil =>
    intro values errors
    simp [Either.allAux, Either.leftsOf, Either.rightsOf]
  | cons x rest ih =>
    intro values errors
    cases x with
    | left l =>
      simp only [Either.allAux, Either.leftsOf, Either.rightsOf, ih,
        List.append_assoc, List.cons_append, List.nil_append]
    | right r =>
      simp only [Either.allAux, Either.leftsOf, Either.rightsOf, ih,
        List.append_assoc, List.cons_append, List.nil_append]

theorem Either.all_collect (es : List (Either L R)) :
    Either.all es =
      if (Either.leftsOf es).length > 0
      then Either.left (Either.leftsOf es)
      else Either.right (Either.rightsOf es) := by
  simpa using Either.allAux_collect es [] []

theorem Either.seqAux_first_left (rs : List R) (l : L)
    (rest : List (Either L R)) :
    ∀ values : List R,
      Either.seqAux values (rs.map Either.right ++ Either.left l :: rest) =
        Either.left l := by
  induction rs with
  | nil => intro values; simp [Either.seqAux]
  | cons r t ih => intro values; simp [Either.seqAux, ih]

theorem Either.seqVisited_first_left (rs : List R) (l : L)
    (rest : List (Either L R)) :
    Either.seqVisited (rs.map Either.right ++ Either.left l :: rest) =
      rs.length + 1 := by
  induction rs with
  | nil => simp [Either.seqVisited]
  | cons r t ih => simp [Either.seqVisited, ih]; omega

theorem Either.leftsOf_ne_nil_of_mem (es : List (Either L R))
    (h : ∃ x ∈ es, x.isLeft = true) : Either.leftsOf es ≠ [] := by
  induction es with
  | nil => simp at h
  | cons x rest ih =>
    cases x with
    | right r =>
      have h2 : ∃ x ∈ rest, x.isLeft = true := by
        rcases h with ⟨x, hmem, hl⟩
        rcases List.mem_cons.mp hmem with heq | hmem2
        · rw [heq] at hl; simp [Either.isLeft] at hl
        · exact ⟨x, hmem2, hl⟩
      simpa [Either.leftsOf] using ih h2
    | left l => simp [Either.leftsOf]

theorem Either.partition_fold (es : List (Either L R)) :
    ∀ acc : EitherPartitioned L R,
      es.foldl Either.partitionStep acc =
        ⟨acc.lefts ++ Either.leftsOf es, acc.rights ++ Either.rightsOf es⟩ := by
  induction es with
  | nil => intro acc; simp [Either.leftsOf, Either.rightsOf]
  | cons x rest ih =>
    intro acc
    cases x with
    | left l =>
      simp [List.foldl_cons, Either.partitionStep, ih, Either.leftsOf,
        Either.rightsOf, List.append_assoc, List.cons_append, List.nil_append]
    | right r =>
      simp [List.foldl_cons, Either.partitionStep, ih, Either.leftsOf,
        Either.rightsOf, List.append_assoc, List.cons_append, List.nil_append]

theorem Either.partition_pair (es : List (Either L R)) :
    Either.partition es = ⟨Either.leftsOf es, Either.rightsOf es⟩ := by
  simpa [Either.partition] using Either.partition_fold es ⟨[], []⟩

theorem Either.length_leftsOf_add_rightsOf (es : List (Either L R)) :
    (Either.rightsOf es).length + (Either.leftsOf es).length = es.length := by
  induction es with
  | nil => rfl
  | cons x rest ih =>
    cases x with
    | left l => simp [Either.leftsOf, Either.rightsOf]; omega
    | right r => simp [Either.leftsOf, Either.rightsOf]; omega

theorem Either.leftsOf_append (xs ys : List (Either L R)) :
    Either.leftsOf (xs ++ ys) = Either.leftsOf xs ++ Either.leftsOf ys := by
  induction xs with
  | nil => rfl
  | cons x rest ih =>
    cases x with
    | left l => simp [Either.leftsOf, ih]
    | right r => simp [Either.leftsOf, ih]

theorem Either.leftsOf_map_right (rs : List R) :
    Either.leftsOf (L := L) (rs.map Either.right) = [] := by
  induction rs with
  | nil => rfl
  | cons r t ih => simpa [Either.leftsOf] using ih

/-! Characterization lemmas for the Maybe `all`. -/

theorem Maybe.allAux_first_nothing (vs : List V) (rest : List (Maybe V)) :
    ∀ values : List V,
      Maybe.allAux values (vs.map Maybe.just ++ Maybe.nothing :: rest) =
        Maybe.nothing := by
  induction vs with
  | nil => intro values; simp [Maybe.allAux]
  | cons v t ih => intro values; simp [Maybe.allAux, ih]

theorem Maybe.allVisited_first_nothing (vs : List V) (rest : List (Maybe V)) :
    Maybe.allVisited (vs.map Maybe.just ++ Maybe.nothing :: rest) =
      vs.length + 1 := by
  induction vs with
  | nil => simp [Maybe.allVisited]
  | cons v t ih => simp [Maybe.allVisited, ih]; omega

/-! Lemmas relating the combinators over possibly-throwing containers to
the pure translations. -/

theorem ContM.allAux_toCont (rs : List (Result P P)) :
    ∀ (values errors : List P),
      ContM.allAux (X := X) values errors (rs.map Result.toCont) =
        Except.ok (Result.allAux values errors rs) := by
  induction rs with
  | nil => intro values errors; rfl
  | cons r rest ih =>
    intro values errors
    cases r with
    | ok v =>
      simp [ContM.allAux, Result.toCont, Result.isErr, Result.extractU,
        Result.allAux, ih]
    | err e =>
      simp [ContM.allAux, Result.toCont, Result.isErr, Result.extractU,
        Result.allAux, ih]

theorem ContM.seqAux_toCont (rs : List (Result P P)) :
    ∀ values : List P,
      ContM.seqAux (X := X) values (rs.map Result.toCont) =
        Except.ok (Result.seqAux values rs) := by
  induction rs with
  | nil => intro values; rfl
  | cons r rest ih =>
    intro values
    cases r with
    | ok v =>
      simp [ContM.seqAux, Result.toCont, Result.isErr, Result.extractU,
        Result.seqAux, ih]
    | err e =>
      simp [ContM.seqAux, Result.toCont, Result.isErr, Result.extractU,
        Result.seqAux]

theorem ContM.partAux_toCont (rs : List (Result P P)) :
    ∀ oks errs : List P,
      ContM.partAux (X := X) oks errs (rs.map Result.toCont) =
        Except.ok (rs.foldl Result.partitionStep ⟨oks, errs⟩) := by
  induction rs with
  | nil => intro oks errs; rfl
  | cons r rest ih =>
    intro oks errs
    cases r with
    | ok v =>
      simp [ContM.partAux, Result.toCont, Result.isErr, Result.extractU,
        List.foldl_cons, Result.partitionStep, ih]
    | err e =>
      simp [ContM.partAux, Result.toCont, Result.isErr, Result.extractU,
        List.foldl_cons, Result.partitionStep, ih]

/-! Claim theorems. -/

/-- Claim C1: for every input sequence (Result or Either variant)
containing at least one failure-state element, `all` returns a
failure-state result whose payload is the ordered collection of every
failing element extracted failure value, in input order, with all
success values discarded. -/
theorem C1_all_collects_every_failure (rs : List (Result V E))
    (es : List (Either L R)) :
    ((∃ r ∈ rs, r.isErr = true) →
      Result.all rs = Result.err (Result.errsOf rs)) ∧
    ((∃ x ∈ es, x.isLeft = true) →
      Either.all es = Either.left (Either.leftsOf es)) := by
  constructor
  · intro h
    have hne := Result.errsOf_ne_nil_of_mem rs h
    rw [Result.all_eq, if_pos (List.length_pos.mpr hne)]
  · intro h
    have hne := Either.leftsOf_ne_nil_of_mem es h
    rw [Either.all_collect, if_pos (List.length_pos.mpr hne)]

/-- Witness for C1 at a concrete input with one failure each. -/
theorem C1_witness :
    Result.all ([Result.ok 1, Result.err 2] : List (Result Nat Nat)) =
      Result.err
        (Result.errsOf ([Result.ok 1, Result.err 2] : List (Result Nat Nat))) ∧
    Either.all ([Either.left 3, Either.right 4] : List (Either Nat Nat)) =
      Either.left
        (Either.leftsOf
          ([Either.left 3, Either.right 4] : List (Either Nat Nat))) := by
  have h := C1_all_collects_every_failure
    ([Result.ok 1, Result.err 2] : List (Result Nat Nat))
    ([Either.left 3, Either.right 4] : List (Either Nat Nat))
  exact ⟨h.1 ⟨Result.err 2, by simp, rfl⟩, h.2 ⟨Either.left 3, by simp, rfl⟩⟩

/-- Claim C2: `sequence` is fail-fast in the Result and Either variants.
On an input whose first failure sits after an all-success spread, the
returned failure payload is exactly that single first failure value,
whatever comes later, and the loop performs exactly enough iterations to
reach the first failure, so no later element is examined. -/
theorem C2_sequence_fail_fast (vs : List V) (e : E) (rest : List (Result V E))
    (rvs : List R) (l : L) (erest : List (Either L R)) :
    Result.sequence (vs.map Result.ok ++ Result.err e :: rest) =
      Result.err e ∧
    Result.seqVisited (vs.map Result.ok ++ Result.err e :: rest) =
      vs.length + 1 ∧
    Either.sequence (rvs.map Either.right ++ Either.left l :: erest) =
      Either.left l ∧
    Either.seqVisited (rvs.map Either.right ++ Either.left l :: erest) =
      rvs.length + 1 := by
  refine ⟨?_, Result.seqVisited_first_err vs e rest, ?_,
    Either.seqVisited_first_left rvs l erest⟩
  · simpa [Result.sequence] using Result.seqAux_first_err vs e rest []
  · simpa [Either.sequence] using Either.seqAux_first_left rvs l erest []

/-- Counterexample to claim C3: in the Maybe variant, `all` does
short-circuit. On the two-element input with a Nothing first, the loop
performs exactly one iteration, so the second element is never
inspected, and nothing is ever appended to any failure accumulator. -/
theorem C3_counterexample_maybe_short_circuits :
    Maybe.allVisited ([Maybe.nothing, Maybe.just 1] : List (Maybe Nat)) = 1 ∧
    ([Maybe.nothing, Maybe.just 1] : List (Maybe Nat)).length = 2 ∧
    Maybe.all ([Maybe.nothing, Maybe.just 1] : List (Maybe Nat)) =
      Maybe.nothing :=
  ⟨rfl, rfl, rfl⟩

/-- Claim C3 as amended: in the Result and Either variants, `all` folds
over the whole input, appending every element extracted payload to the
success or failure accumulator with no short-circuit, and equals the
reference full-fold definition; the Maybe variant instead
short-circuits, its loop stopping right at the first Nothing. -/
theorem C3_all_full_fold_except_maybe (rs : List (Result V E))
    (es : List (Either L R)) (vs : List W) (rest : List (Maybe W)) :
    Result.all rs = Result.allRef rs ∧
    Either.all es = Either.allRef es ∧
    Maybe.allVisited (vs.map Maybe.just ++ Maybe.nothing :: rest) =
      vs.length + 1 := by
  refine ⟨?_, ?_, Maybe.allVisited_first_nothing vs rest⟩
  · rw [Result.all_eq]; rfl
  · rw [Either.all_collect]; rfl

/-- Claim C4: for every input sequence whose elements are all in success
state (including the empty sequence), both `all` and `sequence` return a
success-state result whose payload is the ordered collection of the
elements extracted values in input order. -/
theorem C4_all_success_gives_ok (rs : List (Result V E))
    (h : ∀ r ∈ rs, r.isErr = false) :
    Result.all rs = Result.ok (Result.oksOf rs) ∧
    Result.sequence rs = Result.ok (Result.oksOf rs) := by
  constructor
  · rw [Result.all_eq, Result.errsOf_of_no_err rs h]
    rfl
  · simpa [Result.sequence] using Result.seqAux_of_no_err rs h []

/-- Witness for C4 at the empty input and at a concrete all-success
input. -/
theorem C4_witness :
    (Result.all ([] : List (Result Nat Nat)) =
        Result.ok (Result.oksOf ([] : List (Result Nat Nat))) ∧
      Result.sequence ([] : List (Result Nat Nat)) =
        Result.ok (Result.oksOf ([] : List (Result Nat Nat)))) ∧
    (Result.all ([Result.ok 5, Result.ok 6] : List (Result Nat Nat)) =
        Result.ok
          (Result.oksOf ([Result.ok 5, Result.ok 6] : List (Result Nat Nat))) ∧
      Result.sequence ([Result.ok 5, Result.ok 6] : List (Result Nat Nat)) =
        Result.ok
          (Result.oksOf
            ([Result.ok 5, Result.ok 6] : List (Result Nat Nat)))) :=
  ⟨C4_all_success_gives_ok [] (by simp),
   C4_all_success_gives_ok _ (by decide)⟩

/-- Claim C5: `partition` (Result and Either variants) returns exactly
the two reference collections: the extracted payloads of the success
elements and of the failure elements, each in relative input order, so
every element lands in exactly one collection and the two lengths sum to
the input length; the empty input gives two empty collections. -/
theorem C5_partition_complete_ordered (rs : List (Result V E))
    (es : List (Either L R)) :
    Result.partition rs = ⟨Result.oksOf rs, Result.errsOf rs⟩ ∧
    (Result.oksOf rs).length + (Result.errsOf rs).length = rs.length ∧
    Either.partition es = ⟨Either.leftsOf es, Either.rightsOf es⟩ ∧
    (Either.rightsOf es).length + (Either.leftsOf es).length = es.length :=
  ⟨Result.partition_eq rs, Result.length_oksOf_add_errsOf rs,
   Either.partition_pair es, Either.length_leftsOf_add_rightsOf es⟩

/-- Counterexample to claim C6: in the Maybe variant, a failing `all`
returns Nothing, which carries no payload at all, so the single failure
is not wrapped in a one-element array; extraction yields the JS
undefined, not an array. -/
theorem C6_counterexample_maybe_no_array :
    Maybe.all ([Maybe.nothing] : List (Maybe Nat)) = Maybe.nothing ∧
    (Maybe.all ([Maybe.nothing] : List (Maybe Nat))).extract = none :=
  ⟨rfl, rfl⟩

/-- Claim C6 as amended: in the Result and Either variants, a failing
`all` always wraps its collected failures in a freshly built array, a
one-element array when exactly one element failed; the Maybe variant
returns Nothing, which carries no payload (extraction yields the JS
undefined). -/
theorem C6_single_failure_wrapped (vs1 vs2 : List V) (e : E)
    (rs1 rs2 : List R) (l : L) (ms : List W) (rest : List (Maybe W)) :
    Result.all (vs1.map Result.ok ++ Result.err e :: vs2.map Result.ok) =
      Result.err [e] ∧
    Either.all
        (rs1.map Either.right ++ Either.left l :: rs2.map Either.right) =
      Either.left [l] ∧
    (Maybe.all (ms.map Maybe.just ++ Maybe.nothing :: rest)).extract =
      none := by
  refine ⟨?_, ?_, ?_⟩
  · rw [Result.all_eq]
    have h : Result.errsOf
        (vs1.map Result.ok ++ Result.err e :: vs2.map Result.ok) = [e] := by
      simp [Result.errsOf_append, Result.errsOf, Result.errsOf_map_ok]
    rw [h]
    rfl
  · rw [Either.all_collect]
    have h : Either.leftsOf
        (rs1.map Either.right ++ Either.left l :: rs2.map Either.right) =
          [l] := by
      simp [Either.leftsOf_append, Either.leftsOf, Either.leftsOf_map_right]
    rw [h]
    rfl
  · show (Maybe.allAux []
      (ms.map Maybe.just ++ Maybe.nothing :: rest)).extract = none
    rw [Maybe.allAux_first_nothing ms rest []]
    rfl

/-- Claim C7: `all` and `partition` agree on every input array of Result
containers: `all` fails exactly when the errs collection of `partition`
is non-empty, returning it as payload, and otherwise succeeds with the
oks collection as payload. -/
theorem C7_all_agrees_with_partition (rs : List (Result V E)) :
    Result.all rs =
      if (Result.partition rs).errs.isEmpty
      then Result.ok (Result.partition rs).oks
      else Result.err (Result.partition rs).errs := by
  rw [Result.all_eq, Result.partition_eq]
  cases h : Result.errsOf rs with
  | nil => simp
  | cons e t => simp

/-- Claim C9: run over containers whose discriminant and extraction
methods may throw, the three combinators never raise an exception of
their own: on containers whose methods all return normally they return
the value the pure translation computes, and an exception raised by a
discriminant or extraction call propagates unmodified, with no
translation or suppression. -/
theorem C9_combinators_total_and_propagate (rs : List (Result P P))
    (b : Bool) (x : X) (m : Except X P) (cs : List (ContM P X)) :
    ContM.all (rs.map (Result.toCont (X := X))) =
      Except.ok (Result.all rs) ∧
    ContM.sequence (rs.map (Result.toCont (X := X))) =
      Except.ok (Result.sequence rs) ∧
    ContM.partition (rs.map (Result.toCont (X := X))) =
      Except.ok (Result.partition rs) ∧
    ContM.all (ContM.mk (Except.error x) m :: cs) = Except.error x ∧
    ContM.sequence (ContM.mk (Except.error x) m :: cs) = Except.error x ∧
    ContM.partition (ContM.mk (Except.error x) m :: cs) = Except.error x ∧
    ContM.all (ContM.mk (Except.ok b) (Except.error x) :: cs) =
      Except.error x ∧
    ContM.sequence (ContM.mk (Except.ok b) (Except.error x) :: cs) =
      Except.error x ∧
    ContM.partition (ContM.mk (Except.ok b) (Except.error x) :: cs) =
      Except.error x := by
  refine ⟨?_, ?_, ?_, rfl, rfl, rfl, ?_, ?_, ?_⟩
  · simpa [ContM.all, Result.all] using ContM.allAux_toCont rs [] []
  · simpa [ContM.sequence, Result.sequence] using ContM.seqAux_toCont rs []
  · simpa [ContM.partition, Result.partition] using
      ContM.partAux_toCont rs [] []
  · cases b <;> rfl
  · cases b <;> rfl
  · cases b <;> rfl

/-- Claim C10: extraction on a Maybe container is total across both
states and never throws; on Nothing it returns the JS undefined
(modelled as none) rather than any failure payload, and on Just it
returns the wrapped value. -/
theorem C10_nothing_extract_undefined (T : Type) (v : T) :
    Maybe.extract (Maybe.nothing : Maybe T) = none ∧
    Maybe.extract (Maybe.just v) = some v :=
  ⟨rfl, rfl⟩
